import Mathlib

/-!
Verification of the room session engine of a multiplayer drawing-and-guessing
game server (Node.js/socket.io).  The JavaScript sources are embedded shallowly:

* strings are `List Char` (ASCII fragment of the JS string operations);
* a JS `Map` is an insertion-ordered association list (`set` of an existing key
  updates in place, `set` of a new key appends, `delete` removes);
* JS numbers appearing in the embedded fragments are exact (`Nat`/`Int`/`Rat`);
* timer callbacks and the asynchronous parts of handlers are modelled as
  explicit step functions; socket emissions are collected in an event list;
* database writes are best-effort and never read back by the embedded logic
  (the server also runs with no database configured), so they are omitted;
* random word choices and random hint-index picks are oracle parameters.

Embedded from: server.js (handlers `create_room`, `join_room`, `start_game`,
`choose_word`, `chat`, the 60 s cleanup sweep, `isCloseGuess`, `createRoom`,
`applyLateJoinPolicy`), domain/rooms.js (`getNextDrawerIndex`, `allGuessed`,
`startTurn`, `beginDrawingPhase`, `endTurn`, `nextTurnOrRound`,
`broadcastRoomState`), domain/words.js (`maskWord`), domain/hints.js
(`revealHintOverTime` callback), domain/scoring.js (`guessScoreForTime`,
`drawerBonus`), security/rateLimit.js (`createRateLimiter`).
-/

namespace Skribbl

/-- JS strings are modelled as lists of characters. -/
abbrev Str := List Char

/-- ASCII whitespace test used to model `String.prototype.trim`. -/
def isWS (c : Char) : Bool :=
  c = ' ' || c = '\t' || c = '\n' || c = '\r'

/-- Model of `s.trim()`: drop whitespace from both ends. -/
def jsTrim (s : Str) : Str :=
  ((s.dropWhile isWS).reverse.dropWhile isWS).reverse

/-- Model of `s.toLowerCase()` on the ASCII fragment (`Char.toLower` lowers
exactly the characters `A`-`Z`). -/
def jsLower (s : Str) : Str := s.map Char.toLower

/-- Truthiness of an optional JS string: `undefined`/`null` and the empty
string are falsy. -/
def optTruthy (o : Option Str) : Bool :=
  match o with
  | none => false
  | some s => !s.isEmpty

/-- JS `a || b` on optional strings. -/
def optOr (a b : Option Str) : Option Str :=
  if optTruthy a then a else b

/-! ### JS `Map` as an insertion-ordered association list -/

/-- Model of `Map.prototype.get`. -/
def mapGet {β : Type} (m : List (Str × β)) (k : Str) : Option β :=
  match m with
  | [] => none
  | (k', v) :: rest => if k' = k then some v else mapGet rest k

/-- Model of `Map.prototype.has`. -/
def mapHas {β : Type} (m : List (Str × β)) (k : Str) : Bool :=
  (mapGet m k).isSome

/-- Model of `Map.prototype.set`: update in place if the key is present,
append otherwise. -/
def mapSet {β : Type} (m : List (Str × β)) (k : Str) (v : β) : List (Str × β) :=
  match m with
  | [] => [(k, v)]
  | (k', v') :: rest => if k' = k then (k, v) :: rest else (k', v') :: mapSet rest k v

/-- Model of `Map.prototype.delete`. -/
def mapDelete {β : Type} (m : List (Str × β)) (k : Str) : List (Str × β) :=
  match m with
  | [] => []
  | (k', v') :: rest => if k' = k then rest else (k', v') :: mapDelete rest k

/-- Model of `Array.from(m.keys())`. -/
def mapKeys {β : Type} (m : List (Str × β)) : List Str := m.map Prod.fst

/-- Model of `Array.from(m.values())`. -/
def mapValues {β : Type} (m : List (Str × β)) : List β := m.map Prod.snd

/-! ### Data model -/

/-- The phases of a room (`waiting | choosing | drawing | intermission |
ended`). -/
inductive Phase where
  | waiting
  | choosing
  | drawing
  | intermission
  | ended
deriving DecidableEq

/-- A player record as stored in `room.players`. -/
structure Player where
  id : Str
  name : Str
  tgId : Option Str
  score : Int
  guessed : Bool
deriving DecidableEq

/-- The in-memory room aggregate created by `createRoom` and mutated by the
handlers and timer callbacks.  `playerOrder` is `none` until `start_game`
snapshots it (the JS code tests `Array.isArray(room.playerOrder)`);
`turnStartedAt` models `room._turnStartedAt` (absent until set). -/
structure Room where
  code : Str
  players : List (Str × Player)
  playerOrder : Option (List Str)
  drawerIndex : Nat
  round : Nat
  maxRounds : Nat
  currentWord : Option Str
  hint : Option Str
  phase : Phase
  timer : Int
  choices : List Str
  joinedSet : List Str
  hostId : Option Str
  hostTgId : Option Str
  turnStartedAt : Option Int
deriving DecidableEq

/-- The order used by rooms.js whenever `playerOrder` is not an array:
`Array.isArray(room.playerOrder) ? room.playerOrder :
Array.from(room.players.keys())`. -/
def effOrder (room : Room) : List Str :=
  match room.playerOrder with
  | some order => order
  | none => mapKeys room.players

/-- The room a fresh `createRoom` builds (DEFAULTS.maxRounds = 3). -/
def initialRoom (code : Str) : Room :=
  { code := code
    players := []
    playerOrder := none
    drawerIndex := 0
    round := 1
    maxRounds := 3
    currentWord := none
    hint := none
    phase := Phase.waiting
    timer := 0
    choices := []
    joinedSet := []
    hostId := none
    hostTgId := none
    turnStartedAt := none }

/-- Model of `createRoom(code)` over the registry (the `rooms` map):
return the existing room unchanged, or insert a fresh `waiting` room. -/
def createRoom (code : Str) (reg : List (Str × Room)) : Room × List (Str × Room) :=
  match mapGet reg code with
  | some r => (r, reg)
  | none => (initialRoom code, mapSet reg code (initialRoom code))

/-! ### domain/scoring.js -/

/-- JS `x || 0` on an exact number. -/
def jsOrZero (t : Rat) : Rat := if t = 0 then 0 else t

/-- Model of `guessScoreForTime(timer)`:
`100 + Math.floor(Math.max(0, Number(timer) || 0))` (with `Math.max` and
`Math.floor` spelled out through `Rat.floor` so that the kernel can
evaluate the function; the floor/max forms are proved in
`guessScoreForTime_spec`). -/
def guessScoreForTime (timer : Rat) : Int :=
  let timeBonus := if 0 ≤ jsOrZero timer then jsOrZero timer else 0
  100 + timeBonus.floor

/-- Model of `drawerBonus()`. -/
def drawerBonus : Int := 20

/-! ### security/rateLimit.js -/

/-- The `while (times.length && now - times[0] > windowMs) times.shift()`
pruning loop of the rate limiter. -/
def pruneTimes (windowMs : Nat) (now : Int) : List Int → List Int
  | [] => []
  | t :: rest => if now - t > windowMs then pruneTimes windowMs now rest else t :: rest

/-- Model of one `allow()` call of `createRateLimiter({count, windowMs})`:
prune expired timestamps, deny if `count` remain, otherwise record `now`. -/
def allow (count windowMs : Nat) (now : Int) (times : List Int) : Bool × List Int :=
  let ts := pruneTimes windowMs now times
  if count ≤ ts.length then (false, ts) else (true, ts ++ [now])

/-- Run a sequence of `allow()` calls at the given instants, collecting the
results and the final recorded-timestamp state. -/
def runAllow (count windowMs : Nat) (times : List Int) : List Int → List Bool × List Int
  | [] => ([], times)
  | now :: rest =>
      let r := allow count windowMs now times
      let rec' := runAllow count windowMs r.2 rest
      (r.1 :: rec'.1, rec'.2)

/-- Modelled from the spec: an `allow()` call is admitted iff fewer than
`count` previously admitted calls have timestamps within `windowMs` of the
current time.  Reference definition for the refinement proof, built from the
spec's words, with `admitted` the timestamps of all previously admitted
calls. -/
def specAllowed (count windowMs : Nat) (admitted : List Int) (now : Int) : Bool :=
  decide ((admitted.filter (fun t => now - t ≤ windowMs)).length < count)

/-- Modelled from the spec: run a sequence of calls against `specAllowed`,
recording every admitted call's timestamp. -/
def specRun (count windowMs : Nat) (admitted : List Int) : List Int → List Bool
  | [] => []
  | now :: rest =>
      let ok := specAllowed count windowMs admitted now
      ok :: specRun count windowMs (if ok then admitted ++ [now] else admitted) rest

/-! ### domain/words.js -/

/-- Model of `maskWord(word, revealed)` at offset `i`: spaces are kept,
revealed indices are disclosed, everything else becomes an underscore. -/
def maskWordAux (revealed : Finset Nat) : Nat → Str → Str
  | _, [] => []
  | i, ch :: rest =>
      (if ch = ' ' then ' ' else if i ∈ revealed then ch else '_') :: maskWordAux revealed (i + 1) rest

/-- Model of `maskWord(word, revealed = new Set())`. -/
def maskWord (word : Str) (revealed : Finset Nat) : Str :=
  maskWordAux revealed 0 word

/-! ### Levenshtein distance and `isCloseGuess` (server.js) -/

/-- Substitution cost of the classic Levenshtein recurrence. -/
def levCost (x y : Char) : Nat := if x = y then 0 else 1

/-- The Wagner-Fischer matrix: `levM a b i j` is the Levenshtein edit
distance between the first `i` characters of `a` and the first `j`
characters of `b`, defined by the classic dynamic-programming recurrence
(delete, insert, substitute). -/
def levM (a b : Str) : Nat → Nat → Nat
  | 0, j => j
  | i + 1, 0 => i + 1
  | i + 1, j + 1 =>
      min (levM a b i (j + 1) + 1)
        (min (levM a b (i + 1) j + 1)
          (levM a b i j + levCost (a.getD i ' ') (b.getD j ' ')))
termination_by i j => i + j

/-- The Levenshtein edit distance between two strings. -/
def levenshtein (a b : Str) : Nat := levM a b a.length b.length

/-- One sweep of the inner `for (let j = 1; ...)` loop of the JS dynamic
program: `above` is the old `dp[j]`, `left` the freshly written `dp[j-1]`,
`diag` the `prev` variable. -/
def dpRowAux (ca : Char) : Str → List Nat → Nat → Nat → List Nat
  | [], _, _, _ => []
  | _ :: _, [], _, _ => []
  | cb :: bs, above :: olds, diag, left =>
      let cell := min (above + 1) (min (left + 1) (diag + levCost ca cb))
      cell :: dpRowAux ca bs olds above cell

/-- The outer `for (let i = 1; ...)` loop: fold each character of `a` over
the current row (`i` counts the characters of `a` already consumed). -/
def dpLoop (b : Str) : Str → Nat → List Nat → List Nat
  | [], _, row => row
  | ca :: as', i, row =>
      dpLoop b as' (i + 1) ((i + 1) :: dpRowAux ca b row.tail (row.headD 0) (i + 1))

/-- The value `dp[b.length]` the JS dynamic program returns. -/
def dpDist (a b : Str) : Nat :=
  (dpLoop b a 0 (List.range (b.length + 1))).getD b.length 0

/-- Model of `isCloseGuess(guess, word)` (server.js): lower-case and trim,
reject empty inputs, compute `maxClose = Math.max(1, Math.floor(b.length *
0.25))`, short-circuit on a length difference above `maxClose`, cap both
strings at 40 characters, then run the dynamic program. -/
def isCloseGuess (guess word : Str) : Bool :=
  let a := jsTrim (jsLower guess)
  let b := jsTrim (jsLower word)
  if a.isEmpty || b.isEmpty then false
  else
    let maxClose := max 1 (b.length / 4)
    if (a.length : Int) - b.length > maxClose ∨ (b.length : Int) - a.length > maxClose then false
    else
      let a' := a.take 40
      let b' := b.take 40
      decide (dpDist a' b' ≤ maxClose)
/-! ### Events (socket emissions) -/

/-- Emission target: a single socket or a whole room. -/
inductive Target where
  | sock (sid : Str)
  | room (code : Str)
deriving DecidableEq

/-- System chat messages emitted by the embedded handlers. -/
inductive SysMsg where
  | tooFast
  | slowCreate
  | slowJoin
  | slowStart
  | invalidCode
  | roomCreatedMsg (code : Str)
  | notFound (code : Str)
  | notJoinable (code : Str) (phase : Phase)
  | full (code : Str)
  | joined (name : Str)
  | youGuessed
  | playerGuessed (name : Str)
  | closeGuess
deriving DecidableEq

/-- Structured `app_error` tags. -/
inductive ErrTag where
  | invalidRoomCode (code : Str)
  | roomNotFound (code : Str)
  | roomEnded (code : Str)
  | roomNotWaiting (code : Str)
  | roomFull (code : Str)
deriving DecidableEq

/-- JS `x || null` on an optional string. -/
def jsOrNull (o : Option Str) : Option Str := if optTruthy o then o else none

/-- The per-player projection of `broadcastRoomState`. -/
structure PlayerView where
  id : Str
  name : Str
  tgId : Option Str
  score : Int
  guessed : Bool
deriving DecidableEq

/-- The `room_state` snapshot computed by `broadcastRoomState`. -/
structure Snapshot where
  code : Str
  players : List PlayerView
  round : Nat
  maxRounds : Nat
  drawerId : Option Str
  hint : Option Str
  phase : Phase
  timer : Int
  hostId : Option Str
  hostTgId : Option Str
deriving DecidableEq

/-- All socket emissions of the embedded handlers and callbacks. -/
inductive Event where
  | chatSystem (target : Target) (tag : SysMsg)
  | chatUser (roomCode : Str) (name : Str) (text : Str)
  | appError (sid : Str) (tag : ErrTag)
  | roomCreated (sid : Str) (code : Str)
  | roomState (snap : Snapshot)
  | turnStart (roomCode : Str) (drawerId : Option Str)
  | wordChoices (drawerId : Option Str) (choices : List Str)
  | hintUpdate (roomCode : Str) (hint : Str)
  | timerTick (roomCode : Str) (t : Int)
  | turnEnd (roomCode : Str) (word : Option Str)
  | roundStarted (roomCode : Str) (round : Nat) (time : Int)
  | gameOver (roomCode : Str) (scores : List (Str × Str × Option Str × Int))
  | gameStarted (roomCode : Str)
  | wordChosen (sid : Str)
deriving DecidableEq

/-- Model of `broadcastRoomState(io, room)` (domain/rooms.js). -/
def broadcastRoomState (room : Room) : Event :=
  Event.roomState
    { code := room.code
      players := (mapValues room.players).map fun p =>
        { id := p.id, name := p.name, tgId := jsOrNull p.tgId, score := p.score, guessed := p.guessed }
      round := room.round
      maxRounds := room.maxRounds
      drawerId := jsOrNull ((effOrder room)[room.drawerIndex]?)
      hint := jsOrNull room.hint
      phase := room.phase
      timer := room.timer
      hostId := jsOrNull room.hostId
      hostTgId := jsOrNull room.hostTgId }

/-- The `game_over` payload. -/
def finalScores (room : Room) : List (Str × Str × Option Str × Int) :=
  (mapValues room.players).map fun p => (p.id, p.name, jsOrNull p.tgId, p.score)

/-! ### domain/rooms.js -/

/-- The scanning loop of `getNextDrawerIndex`: try `idx = (drawerIndex +
step) % n` for `step = 1..n` and return the first index whose id is still in
`players`; return 0 if no step succeeds.  `s` is the current step, the last
argument the number of steps left. -/
def scanNext (pl : List (Str × Player)) (order : List Str) (di : Nat) : Nat → Nat → Nat
  | _, 0 => 0
  | s, r + 1 =>
      let idx := (di + s) % order.length
      if mapHas pl (order.getD idx []) then idx else scanNext pl order di (s + 1) r

/-- Model of `getNextDrawerIndex(room)`. -/
def getNextDrawerIndex (room : Room) : Nat :=
  let order := effOrder room
  if order.length = 0 then 0
  else scanNext room.players order room.drawerIndex 1 order.length

/-- Model of `allGuessed(room)`: every player other than the current drawer
has `guessed` set. -/
def allGuessed (room : Room) : Bool :=
  let currentDrawerId := (effOrder room)[room.drawerIndex]?
  ((mapValues room.players).filter fun p => decide (some p.id ≠ currentDrawerId)).all
    fun p => p.guessed

/-- JS `Math.max` on integers. -/
def jsMaxI (a b : Int) : Int := if a ≤ b then b else a

/-- The round-time multiplier table `[1.0, 0.85, 0.7]` of
`beginDrawingPhase`, in percent. -/
def multPct (i : Nat) : Nat :=
  match i with
  | 0 => 100
  | 1 => 85
  | _ => 70

/-- `Math.round(75 * m)` for a multiplier `m = pct / 100`, computed exactly
over integers: `round(x) = floor(x + 1/2)` and `75 * pct / 100 + 1/2 =
(150 * pct + 100) / 200`, so the rounded value is the integer quotient.
(The values are 75, 64, 53.) -/
def roundTimePct (pct : Nat) : Int := ((150 * pct + 100) / 200 : Nat)

/-- The drawing timer of `beginDrawingPhase`: `Math.max(20, Math.round(75 *
multipliers[(round - 1) % 3]))` (the JS `|| 0.6` fallback is inert: the
indexed entry always exists and is truthy). -/
def roundTimeVal (round : Nat) : Int :=
  jsMaxI 20 (roundTimePct (multPct ((round - 1) % 3)))

/-- The `time` value of the `round_started` event in `nextTurnOrRound`,
whose index is clamped (`Math.max(0, Math.min(2, round - 1))`) instead of
reduced mod 3. -/
def roundStartedTimeVal (round : Nat) : Int :=
  jsMaxI 20 (roundTimePct (multPct (min 2 (round - 1))))

/-- Model of `startTurn(io, room)`: inert on ended rooms; otherwise enter
`choosing`, clear the word and hint, install the (oracle-supplied) word
choices, announce the turn and reset every `guessed` flag.  `ws` stands for
the result of `getRandomChoices(3)`. -/
def startTurn (ws : List Str) (room : Room) : Room × List Event :=
  if room.phase = Phase.ended then (room, [])
  else
    let r1 := { room with
      phase := Phase.choosing, currentWord := none, hint := none, choices := ws }
    let drawerId := (effOrder r1)[r1.drawerIndex]?
    let r2 := { r1 with players := r1.players.map fun kp => (kp.1, { kp.2 with guessed := false }) }
    (r2, [Event.turnStart r2.code drawerId, Event.wordChoices drawerId ws])

/-- Model of `beginDrawingPhase(io, room, DEFAULTS, word)` (the tick and
hint intervals it arms are the separate steps `tickStep` and `hintStep`). -/
def beginDrawingPhase (room : Room) (word : Str) : Room × List Event :=
  let r := { room with
    currentWord := some word
    hint := some (maskWord word ∅)
    phase := Phase.drawing
    timer := roundTimeVal room.round }
  (r, [Event.hintUpdate r.code (maskWord word ∅), broadcastRoomState r])

/-- Model of `endTurn(io, room)` (clearing the interval handles has no
state-visible effect here; the 3-second delay it arms is the separate step
`nextTurnOrRound`). -/
def endTurn (room : Room) : Room × List Event :=
  let r := { room with phase := Phase.intermission }
  (r, [Event.turnEnd r.code room.currentWord])

/-- Model of `nextTurnOrRound(io, room)`: inert on ended rooms; normalize
`playerOrder` to the ids still present; end the game early below 2 players;
otherwise advance the drawer, increment the round exactly when the new index
does not move forward, and either finish the game or start the next turn. -/
def nextTurnOrRound (ws : List Str) (room : Room) : Room × List Event :=
  if room.phase = Phase.ended then (room, [])
  else
    let order := (effOrder room).filter fun id => mapHas room.players id
    let r1 := { room with playerOrder := some order }
    if order.length < 2 then
      ({ r1 with phase := Phase.ended }, [Event.gameOver r1.code (finalScores r1)])
    else
      let prevIndex := r1.drawerIndex
      let r2 := { r1 with drawerIndex := getNextDrawerIndex r1 }
      if 1 < order.length ∧ r2.drawerIndex ≤ prevIndex then
        let r3 := { r2 with round := r2.round + 1 }
        if r3.maxRounds < r3.round then
          ({ r3 with phase := Phase.ended }, [Event.gameOver r3.code (finalScores r3)])
        else
          let es := [Event.roundStarted r3.code r3.round (roundStartedTimeVal r3.round)]
          if r3.maxRounds < r3.round then
            ({ r3 with phase := Phase.ended }, es ++ [Event.gameOver r3.code (finalScores r3)])
          else
            let st := startTurn ws r3
            (st.1, es ++ st.2)
      else
        if r2.maxRounds < r2.round then
          ({ r2 with phase := Phase.ended }, [Event.gameOver r2.code (finalScores r2)])
        else
          startTurn ws r2

/-- The per-second tick interval armed by `beginDrawingPhase`: inert unless
the phase is still `drawing`, otherwise decrement and broadcast the timer
and end the turn at zero or once everyone has guessed. -/
def tickStep (room : Room) : Room × List Event :=
  if room.phase = Phase.drawing then
    let r := { room with timer := room.timer - 1 }
    if r.timer ≤ 0 ∨ allGuessed r then
      let et := endTurn r
      (et.1, Event.timerTick r.code r.timer :: et.2)
    else
      (r, [Event.timerTick r.code r.timer])
  else (room, [])

/-- One firing of the hint-reveal interval of `revealHintOverTime`
(domain/hints.js).  The closure state it captured when armed is explicit:
the captured word, the list of not-yet-revealed non-space indices and the
set already revealed; `pick` is the random choice.  Inert unless the phase
is still `drawing`. -/
def hintStep (capturedWord : Str) (indices : List Nat) (revealed : List Nat) (pick : Nat)
    (room : Room) : Room × List Event × (List Nat × List Nat) :=
  if room.phase ≠ Phase.drawing then (room, [], (indices, revealed))
  else if indices.isEmpty then (room, [], (indices, revealed))
  else
    let n := pick % indices.length
    let idx := indices.getD n 0
    let indices' := indices.eraseIdx n
    let revealed' := idx :: revealed
    let h := maskWord capturedWord revealed'.toFinset
    ({ room with hint := some h }, [Event.hintUpdate room.code h], (indices', revealed'))

/-- The delayed `endTurn` armed by the chat handler when everyone guessed
before `minDrawMs` elapsed: fires only if the room is still `drawing`. -/
def delayedEndTurnStep (room : Room) : Room × List Event :=
  if room.phase = Phase.drawing then endTurn room else (room, [])

/-- The periodic cleanup sweep (server.js): delete every ended room from the
registry. -/
def sweepStep (reg : List (Str × Room)) : List (Str × Room) :=
  reg.filter fun kr => decide (kr.2.phase ≠ Phase.ended)

/-! ### server.js handlers -/

/-- JS `s.toUpperCase()` on the ASCII fragment. -/
def jsUpper (s : Str) : Str := s.map Char.toUpper

/-- The room-code pattern `/^[A-Z0-9]{4}$/`. -/
def validCode (s : Str) : Bool :=
  s.length = 4 && s.all fun c => ('A' ≤ c && c ≤ 'Z') || ('0' ≤ c && c ≤ '9')

/-- JS `name?.slice(0, 24) || fallback` for an optional payload name. -/
def jsNameOr (nm : Option Str) (fallback : Str) : Str :=
  match nm with
  | none => fallback
  | some l => if (l.take 24).isEmpty then fallback else l.take 24

/-- JS `name || fallback` for an optional payload string (no slicing). -/
def jsStrOr (o : Option Str) (fb : Str) : Str :=
  match o with
  | none => fb
  | some s => if s.isEmpty then fb else s

/-- Model of `Array.prototype.splice(i, 0, x)` as used by
`applyLateJoinPolicy` (insert at index `i`, which is at most the length). -/
def insertAtIdx (l : List Str) (i : Nat) (x : Str) : List Str :=
  match i, l with
  | 0, l => x :: l
  | _ + 1, [] => [x]
  | i + 1, y :: ys => y :: insertAtIdx ys i x

/-- Model of `applyLateJoinPolicy(room, socketId)`: during an active game,
splice an absent joiner into the rotation right after the current drawer. -/
def applyLateJoinPolicy (room : Room) (sid : Str) : Room :=
  if room.phase ≠ Phase.waiting ∧ room.phase ≠ Phase.ended then
    let order := effOrder room
    if sid ∈ order then room
    else
      { room with playerOrder := some (insertAtIdx order ((room.drawerIndex + 1) % (order.length + 1)) sid) }
  else room

/-- Model of the `create_room` handler over the registry (database-less
configuration): rate limit, reject falsy or ill-formed codes, then
`createRoom` and stamp the creator as host if none is set. -/
def createRoomStep (reg : List (Str × Room)) (sid : Str) (code : Str) (now : Int)
    (createTimes : List Int) : List (Str × Room) × List Event × List Int :=
  let al := allow 3 10000 now createTimes
  if !al.1 then (reg, [Event.chatSystem (Target.sock sid) SysMsg.slowCreate], al.2)
  else if code.isEmpty then (reg, [], al.2)
  else
    let raw := jsUpper (jsTrim code)
    if !validCode raw then
      (reg, [Event.appError sid (ErrTag.invalidRoomCode raw),
             Event.chatSystem (Target.sock sid) SysMsg.invalidCode], al.2)
    else
      let cr := createRoom raw reg
      let created := if optTruthy cr.1.hostId then cr.1 else { cr.1 with hostId := some sid }
      (mapSet cr.2 raw created,
       [Event.chatSystem (Target.sock sid) (SysMsg.roomCreatedMsg raw),
        Event.roomCreated sid raw, broadcastRoomState created], al.2)

/-- Model of the room-level part of the `join_room` handler (database-less
configuration, no Telegram bot token configured): rate limit, require the
`waiting` phase, refresh an already-joined socket, evict duplicate Telegram
identities, enforce the room capacity (MAX_PLAYERS = 12), insert the player
and apply the late-join policy. -/
def joinStep (room : Room) (sid : Str) (nm : Option Str) (tg : Option Str) (now : Int)
    (joinTimes : List Int) : Room × List Event × List Int :=
  let al := allow 5 5000 now joinTimes
  if !al.1 then (room, [Event.chatSystem (Target.sock sid) SysMsg.slowJoin], al.2)
  else if room.phase ≠ Phase.waiting then
    (room,
     [Event.chatSystem (Target.sock sid) (SysMsg.notJoinable room.code room.phase),
      Event.appError sid (if room.phase = Phase.ended then ErrTag.roomEnded room.code
        else ErrTag.roomNotWaiting room.code)], al.2)
  else
    match mapGet room.players sid with
    | some p =>
        let p1 := { p with name := jsNameOr nm p.name, tgId := optOr tg p.tgId }
        let r1 := { room with players := mapSet room.players sid p1 }
        (r1, [broadcastRoomState r1], al.2)
    | none =>
        let r1 := if optTruthy tg then
            { room with players := room.players.filter fun kp =>
                !(optTruthy kp.2.tgId && kp.2.tgId = tg && kp.1 ≠ sid) }
          else room
        if 12 ≤ r1.players.length then
          (r1, [Event.appError sid (ErrTag.roomFull room.code),
                Event.chatSystem (Target.sock sid) (SysMsg.full room.code)], al.2)
        else
          let newP : Player :=
            { id := sid, name := jsNameOr nm "Player".toList, tgId := jsOrNull tg
              score := 0, guessed := false }
          let r2 := applyLateJoinPolicy { r1 with players := mapSet r1.players sid newP } sid
          (r2, [broadcastRoomState r2,
                Event.chatSystem (Target.room room.code) (SysMsg.joined (jsStrOr nm "Player".toList))], al.2)

/-- Model of the room-level part of the `start_game` handler: rate limit,
require at least two players and the `waiting` phase, then reset the game
state, snapshot `playerOrder` and start the first turn. -/
def startGameStep (room : Room) (ws : List Str) (sid : Str) (now : Int)
    (startTimes : List Int) : Room × List Event × List Int :=
  let al := allow 2 10000 now startTimes
  if !al.1 then (room, [Event.chatSystem (Target.sock sid) SysMsg.slowStart], al.2)
  else if room.players.length < 2 then (room, [], al.2)
  else if room.phase ≠ Phase.waiting then (room, [], al.2)
  else
    let r1 := { room with
      round := 1, drawerIndex := 0, phase := Phase.choosing
      playerOrder := some (mapKeys room.players), turnStartedAt := some now }
    let st := startTurn ws r1
    (st.1, st.2 ++ [Event.gameStarted room.code], al.2)

/-- Model of the room-level part of the `choose_word` handler: only the
resolved drawer may pick, and only a stored choice; note the handler does
not check the phase. -/
def chooseWordStep (room : Room) (sid : Str) (word : Str) (now : Int) : Room × List Event :=
  let drawerId := (mapKeys room.players)[room.drawerIndex]?
  if drawerId ≠ some sid then (room, [])
  else if !room.choices.contains word then (room, [])
  else
    let bd := beginDrawingPhase { room with turnStartedAt := some now } word
    (bd.1, bd.2 ++ [Event.wordChosen sid])

/-- Truthiness of `room.currentWord`. -/
def currentWordTruthy (room : Room) : Bool :=
  match room.currentWord with
  | some w => !w.isEmpty
  | none => false

/-- Model of the room-level part of the `chat` handler: rate limit, trim and
truncate the text, score exact guesses during `drawing` (crediting the
drawer and possibly ending the turn), acknowledge close guesses, and
otherwise relay the message under the server-known player name.  The
payload's `name` field is accepted but never used.  When everyone has
guessed but less than `minDrawMs = 4000` ms of drawing elapsed, the handler
arms `delayedEndTurnStep` instead of ending the turn at once. -/
def chatStep (room : Room) (sid : Str) (message : Str) (_nmArg : Option Str) (now : Int)
    (chatTimes : List Int) : Room × List Event × List Int :=
  match mapGet room.players sid with
  | none => (room, [], chatTimes)
  | some player =>
    let al := allow 5 3000 now chatTimes
    if !al.1 then (room, [Event.chatSystem (Target.sock sid) SysMsg.tooFast], al.2)
    else
      let text := (jsTrim message).take 140
      if text.isEmpty then (room, [], al.2)
      else if room.phase = Phase.drawing ∧ currentWordTruthy room then
        let w := room.currentWord.getD []
        if !player.guessed && jsLower text = jsLower w then
          let guessScore := guessScoreForTime (room.timer : Rat)
          let pl1 := mapSet room.players sid
            { player with guessed := true, score := player.score + guessScore }
          let drawerId := (mapKeys pl1)[room.drawerIndex]?
          let pl2 := match drawerId with
            | some did =>
                match mapGet pl1 did with
                | some d => mapSet pl1 did { d with score := d.score + drawerBonus }
                | none => pl1
            | none => pl1
          let r1 := { room with players := pl2 }
          let evs := [Event.chatSystem (Target.sock sid) SysMsg.youGuessed,
                      Event.chatSystem (Target.room room.code) (SysMsg.playerGuessed player.name),
                      broadcastRoomState r1]
          if allGuessed r1 then
            if (4000 : Int) ≤ now - (r1.turnStartedAt.getD 0) then
              let et := endTurn r1
              (et.1, evs ++ et.2, al.2)
            else (r1, evs, al.2)
          else (r1, evs, al.2)
        else if !player.guessed && isCloseGuess text w then
          (room, [Event.chatSystem (Target.sock sid) SysMsg.closeGuess], al.2)
        else
          (room, [Event.chatUser room.code player.name text], al.2)
      else
        (room, [Event.chatUser room.code player.name text], al.2)

/-! ### Derived predicates used in the statements -/

/-- The identifiers of `playerOrder` (or of the key order, before
`start_game`) that are still present in `players` - the list
`nextTurnOrRound` normalizes `playerOrder` to. -/
def presentOrder (room : Room) : List Str :=
  (effOrder room).filter fun id => mapHas room.players id

/-- The phase edges enumerated in section 4.4 of the specification:
`waiting → choosing`, `choosing → drawing`, `drawing → intermission`,
`intermission → choosing | ended`, `{choosing, drawing} → ended` on
player-count drop and `any → ended` via host closure (the edges into
`ended` are all subsumed by the last). -/
def spec44Edge : Phase → Phase → Bool
  | Phase.waiting, Phase.choosing => true
  | Phase.choosing, Phase.drawing => true
  | Phase.drawing, Phase.intermission => true
  | Phase.intermission, Phase.choosing => true
  | _, Phase.ended => true
  | _, _ => false

/-- The chat messages the handler scores instead of relaying: sent during
`drawing` with a truthy current word by a player who has not guessed yet,
and either matching the word exactly (case-insensitively) or qualifying as
a close guess. -/
def scoredOrClose (room : Room) (p : Player) (text : Str) : Prop :=
  room.phase = Phase.drawing ∧ currentWordTruthy room = true ∧ p.guessed = false ∧
    (jsLower text = jsLower (room.currentWord.getD []) ∨
      isCloseGuess text (room.currentWord.getD []) = true)

instance (room : Room) (p : Player) (text : Str) : Decidable (scoredOrClose room p text) := by
  unfold scoredOrClose
  infer_instance

/-! ### Concrete data for the counterexamples and witnesses -/

/-- A fixed word-source oracle (the static fallback words). -/
def wsOracle : List Str := ["cat".toList, "dog".toList, "tree".toList]

/-- Socket id of the first concrete player. -/
def sidA : Str := "sockA".toList

/-- Socket id of the second concrete player. -/
def sidB : Str := "sockB".toList

/-- Concrete player record for `sidA`. -/
def pA : Player := { id := sidA, name := "Alice".toList, tgId := none, score := 0, guessed := false }

/-- Concrete player record for `sidB`. -/
def pB : Player := { id := sidB, name := "Bob".toList, tgId := none, score := 0, guessed := false }

/-- Registry after `create_room("ab1c")` from a fresh server. -/
def regC1 : List (Str × Room) := (createRoomStep [] sidA "ab1c".toList 0 []).1

/-- The created room `AB1C`. -/
def roomC1a : Room := (mapGet regC1 "AB1C".toList).getD (initialRoom [])

/-- After `join_room` by `sockA`. -/
def roomC1b : Room := (joinStep roomC1a sidA (some "Alice".toList) none 10 []).1

/-- After `join_room` by `sockB`. -/
def roomC1c : Room := (joinStep roomC1b sidB (some "Bob".toList) none 20 []).1

/-- After `start_game` (phase `choosing`). -/
def roomC1d : Room := (startGameStep roomC1c wsOracle sidA 1000 []).1

/-- After the drawer chose the word `cat` (phase `drawing`). -/
def roomC1e : Room := (chooseWordStep roomC1d sidA "cat".toList 1000).1

/-- After `sockB` guessed `cat` at 6000 ms: everyone guessed and more than
`minDrawMs` elapsed, so the turn ended (phase `intermission`, with the
previous turn's `choices` still stored). -/
def roomC1i : Room := (chatStep roomC1e sidB "cat".toList none 6000 []).1

/-- An ended room still holding two connected players (as left behind by a
finished game before the cleanup sweep). -/
def roomEnded : Room :=
  { initialRoom "AB1C".toList with
      players := [(sidA, pA), (sidB, pB)], playerOrder := some [sidA, sidB]
      phase := Phase.ended }

/-- An intermission room whose rotation still lists `sockB` although only
`sockA` is connected, with the departed drawer's index. -/
def roomOne : Room :=
  { initialRoom "AB1C".toList with
      players := [(sidA, pA)], playerOrder := some [sidA, sidB]
      drawerIndex := 1, phase := Phase.intermission }

/-- An intermission room with both players connected, drawer `sockB`. -/
def roomWrap : Room :=
  { initialRoom "AB1C".toList with
      players := [(sidA, pA), (sidB, pB)], playerOrder := some [sidA, sidB]
      drawerIndex := 1, phase := Phase.intermission }

/-- A waiting room holding `sockB`, used to exercise the chat relay. -/
def roomWait : Room :=
  { initialRoom "AB1C".toList with players := [(sidB, pB)] }

/-- A drawing room on the word `cat` where `sockB` has already guessed. -/
def roomGuessed : Room :=
  { initialRoom "AB1C".toList with
      players := [(sidA, pA), (sidB, { pB with guessed := true })]
      playerOrder := some [sidA, sidB]
      phase := Phase.drawing, currentWord := some "cat".toList
      timer := 40, turnStartedAt := some 0 }

/-- A 53-character guess whose first 40 characters coincide with the
50-character word below. -/
def longGuess : Str := List.replicate 40 'x' ++ List.replicate 13 'y'

/-- A 50-character word. -/
def longWord : Str := List.replicate 50 'x'

/-! ## Helper lemmas -/

theorem mapGet_mapSet_self {β : Type} (m : List (Str × β)) (k : Str) (v : β) :
    mapGet (mapSet m k v) k = some v := by
  induction m with
  | nil => simp [mapSet, mapGet]
  | cons kv rest ih =>
      obtain ⟨k', v'⟩ := kv
      by_cases hk : k' = k
      · simp [mapSet, mapGet, hk]
      · simp [mapSet, mapGet, hk, ih]

theorem mapGet_mapSet_ne {β : Type} (m : List (Str × β)) (k c : Str) (v : β) (h : k ≠ c) :
    mapGet (mapSet m k v) c = mapGet m c := by
  have hck : ¬(c = k) := fun hh => h hh.symm
  induction m with
  | nil => simp [mapSet, mapGet, h]
  | cons kv rest ih =>
      obtain ⟨k', v'⟩ := kv
      by_cases hk : k' = k
      · subst hk
        simp [mapSet, mapGet, h, hck]
      · by_cases hc : k' = c
        · subst hc
          simp [mapSet, mapGet, hk, hck]
        · simp [mapSet, mapGet, hk, hc, ih]

theorem mapGet_filter {β : Type} (p : Str × β → Bool) (m : List (Str × β)) (c : Str) (v : β)
    (h : mapGet m c = some v) (hv : p (c, v) = true) :
    mapGet (m.filter p) c = some v := by
  induction m with
  | nil => simp [mapGet] at h
  | cons kv rest ih =>
      obtain ⟨k', v'⟩ := kv
      by_cases hk : k' = c
      · subst hk
        have hv' : v' = v := by simpa [mapGet] using h
        subst hv'
        simp [List.filter, hv, mapGet]
      · have h' : mapGet rest c = some v := by simpa [mapGet, hk] using h
        cases hpv : p (k', v') <;> simp [List.filter, hpv, mapGet, hk, ih h']

theorem startTurn_phase (ws : List Str) (r : Room) :
    (startTurn ws r).1.phase = if r.phase = Phase.ended then r.phase else Phase.choosing := by
  unfold startTurn
  split <;> simp

theorem startTurn_fields (ws : List Str) (r : Room) :
    (startTurn ws r).1.playerOrder = r.playerOrder ∧
    (startTurn ws r).1.drawerIndex = r.drawerIndex ∧
    (startTurn ws r).1.round = r.round := by
  unfold startTurn
  split <;> simp

theorem applyLateJoinPolicy_phase (r : Room) (s : Str) :
    (applyLateJoinPolicy r s).phase = r.phase := by
  simp only [applyLateJoinPolicy]
  split
  · split <;> simp
  · rfl

/-! ## C5: scoring -/

/-- C5: for every (finite) numeric input `t`, `guessScoreForTime(t)` equals
`100 + floor(max(0, t))`, with `guessScoreForTime 30 = 130`,
`guessScoreForTime 0 = 100` and `guessScoreForTime (-5) = 100`, and
`drawerBonus()` is the constant 20. -/
theorem guessScoreForTime_spec :
    (∀ t : Rat, guessScoreForTime t = 100 + Int.floor (max 0 t)) ∧
    guessScoreForTime 30 = 130 ∧ guessScoreForTime 0 = 100 ∧
    guessScoreForTime (-5) = 100 ∧ drawerBonus = 20 := by
  refine ⟨fun t => ?_, by decide, by decide, by decide, rfl⟩
  have hfl : ∀ q : Rat, q.floor = Int.floor q := fun q => by
    rw [Rat.floor_def, Rat.floor_def']
  unfold guessScoreForTime jsOrZero
  by_cases h0 : t = 0
  · subst h0
    simp [hfl]
  · rw [if_neg h0]
    show 100 + (if 0 ≤ t then t else 0).floor = 100 + Int.floor (max 0 t)
    rw [hfl, max_def]

/-! ## C9: maskWord -/

theorem maskWordAux_length (rev : Finset Nat) (w : Str) :
    ∀ i, (maskWordAux rev i w).length = w.length := by
  induction w with
  | nil => intro i; rfl
  | cons ch rest ih => intro i; simp [maskWordAux, ih]

theorem maskWordAux_getD (rev : Finset Nat) (w : Str) :
    ∀ i j, j < w.length → (maskWordAux rev i w).getD j '?' =
      (if w.getD j ' ' = ' ' then ' ' else if (i + j) ∈ rev then w.getD j ' ' else '_') := by
  induction w with
  | nil => intro i j h; simp at h
  | cons ch rest ih =>
      intro i j h
      cases j with
      | zero => simp [maskWordAux, List.getD]
      | succ j =>
          have hj : j < rest.length := by simpa using h
          have := ih (i + 1) j hj
          simp only [maskWordAux, List.getD_cons_succ]
          rw [this]
          have harith : i + 1 + j = i + (j + 1) := by omega
          rw [harith]

/-- C9: `maskWord word revealed` has the length of `word`, keeps spaces,
discloses exactly the revealed indices and masks everything else with an
underscore. -/
theorem maskWord_spec (w : Str) (rev : Finset Nat) :
    (maskWord w rev).length = w.length ∧
    ∀ j, j < w.length → (maskWord w rev).getD j '?' =
      (if w.getD j ' ' = ' ' then ' ' else if j ∈ rev then w.getD j ' ' else '_') := by
  constructor
  · exact maskWordAux_length rev w 0
  · intro j hj
    have := maskWordAux_getD rev w 0 j hj
    simpa using this

/-- Witness for C9 at the word `hi there` with indices 0 and 3 revealed:
position 0 is disclosed, position 1 masked, position 2 is the preserved
space, position 3 disclosed. -/
theorem maskWord_spec_witness :
    (maskWord "hi there".toList {0, 3}).length = 8 ∧
    (maskWord "hi there".toList {0, 3}).getD 1 '?' = '_' ∧
    (maskWord "hi there".toList {0, 3}).getD 2 '?' = ' ' ∧
    (maskWord "hi there".toList {0, 3}).getD 3 '?' = 't' := by
  have h := maskWord_spec "hi there".toList {0, 3}
  refine ⟨by rw [h.1]; decide, ?_, ?_, ?_⟩
  · rw [h.2 1 (by decide)]; decide
  · rw [h.2 2 (by decide)]; decide
  · rw [h.2 3 (by decide)]; decide

/-! ## C7: createRoom idempotence -/

/-- C7: `createRoom` is idempotent: with the code already registered it
returns the stored room and leaves the registry (hence the room's whole
state) unchanged; otherwise it registers exactly one fresh room in the
`waiting` phase with empty player collections. -/
theorem createRoom_idempotent :
    ∀ (reg : List (Str × Room)) (code : Str),
      (∀ r, mapGet reg code = some r → createRoom code reg = (r, reg)) ∧
      (mapGet reg code = none →
        createRoom code reg = (initialRoom code, mapSet reg code (initialRoom code)) ∧
        (initialRoom code).phase = Phase.waiting ∧
        (initialRoom code).players = [] ∧
        (initialRoom code).playerOrder = none ∧
        (initialRoom code).round = 1 ∧
        (initialRoom code).drawerIndex = 0 ∧
        (initialRoom code).choices = []) := by
  intro reg code
  constructor
  · intro r h
    unfold createRoom
    rw [h]
  · intro h
    unfold createRoom
    rw [h]
    exact ⟨rfl, rfl, rfl, rfl, rfl, rfl, rfl⟩

/-- Witness for C7: creating `AB1C` again while an in-progress copy (phase
`drawing`, round 2) is registered returns that copy and the unchanged
registry. -/
theorem createRoom_idempotent_witness :
    createRoom "AB1C".toList
        [("AB1C".toList, { roomGuessed with round := 2 })] =
      ({ roomGuessed with round := 2 },
        [("AB1C".toList, { roomGuessed with round := 2 })]) :=
  (createRoom_idempotent [("AB1C".toList, { roomGuessed with round := 2 })] "AB1C".toList).1
    { roomGuessed with round := 2 } (by decide)

/-! ## C2: early termination of nextTurnOrRound -/

/-- C2: whenever `nextTurnOrRound` runs on a room in which fewer than two
identifiers of the rotation are still present in `players`, the phase is
`ended` afterwards, whatever `round` and `maxRounds` are. -/
theorem nextTurnOrRound_early_end (ws : List Str) (room : Room)
    (h : (presentOrder room).length < 2) :
    (nextTurnOrRound ws room).1.phase = Phase.ended := by
  unfold presentOrder at h
  by_cases hp : room.phase = Phase.ended
  · simp [nextTurnOrRound, hp]
  · simp only [nextTurnOrRound, if_neg hp]
    rw [if_pos h]

/-- Witness for C2: on `roomOne` (rotation `[sockA, sockB]` but only
`sockA` still connected, round 1 of 3) one advance ends the game. -/
theorem nextTurnOrRound_early_end_witness :
    (presentOrder roomOne).length < 2 ∧
    (nextTurnOrRound wsOracle roomOne).1.phase = Phase.ended ∧
    roomOne.round = 1 ∧ roomOne.maxRounds = 3 :=
  ⟨by decide, nextTurnOrRound_early_end wsOracle roomOne (by decide), by decide, by decide⟩

/-! ## C3: drawer advance and round increment -/

theorem scanNext_all_present (pl : List (Str × Player)) (order : List Str) (di : Nat)
    (hall : ∀ id ∈ order, mapHas pl id = true) (hlen : 0 < order.length) :
    ∀ r, 0 < r → scanNext pl order di 1 r = (di + 1) % order.length := by
  intro r hr
  cases r with
  | zero => omega
  | succ r' =>
      have hidx : (di + 1) % order.length < order.length := Nat.mod_lt _ hlen
      have hmem : order.getD ((di + 1) % order.length) [] ∈ order := by
        rw [List.getD_eq_getElem order [] hidx]
        exact List.getElem_mem hidx
      simp only [scanNext]
      rw [if_pos (hall _ hmem)]

theorem getNextDrawerIndex_normalized (room : Room) (order : List Str)
    (hpo : room.playerOrder = some order)
    (hall : ∀ id ∈ order, mapHas room.players id = true)
    (hlen : 0 < order.length) :
    getNextDrawerIndex room = (room.drawerIndex + 1) % order.length := by
  have heff : effOrder room = order := by simp [effOrder, hpo]
  simp only [getNextDrawerIndex, heff]
  rw [if_neg (by omega)]
  exact scanNext_all_present room.players order room.drawerIndex hall hlen order.length (by omega)

/-- C3 (amended): on a room that is not `ended` and whose rotation still
contains at least two connected identifiers, one `nextTurnOrRound` call
normalizes `playerOrder` to the connected identifiers, advances
`drawerIndex` to the next index of that rotation in cyclic order, and
increments `round` by exactly 1 exactly when that advance wraps back past
the start of the rotation (the new index not being beyond the previous
one); otherwise `round` is unchanged. -/
theorem nextTurnOrRound_advance (ws : List Str) (room : Room)
    (hphase : room.phase ≠ Phase.ended)
    (h2 : 2 ≤ (presentOrder room).length) :
    (nextTurnOrRound ws room).1.playerOrder = some (presentOrder room) ∧
    (nextTurnOrRound ws room).1.drawerIndex =
      (room.drawerIndex + 1) % (presentOrder room).length ∧
    ((nextTurnOrRound ws room).1.round = room.round + 1 ↔
      (room.drawerIndex + 1) % (presentOrder room).length ≤ room.drawerIndex) := by
  have hall : ∀ id ∈ presentOrder room, mapHas room.players id = true := by
    intro id hid
    exact (List.mem_filter.mp hid).2
  have hlen : 0 < (presentOrder room).length := by omega
  have hg : getNextDrawerIndex { room with playerOrder := some (presentOrder room) } =
      (room.drawerIndex + 1) % (presentOrder room).length :=
    getNextDrawerIndex_normalized _ (presentOrder room) rfl hall hlen
  unfold presentOrder at *
  simp only [nextTurnOrRound, if_neg hphase]
  rw [if_neg (by omega)]
  rw [hg]
  by_cases hw : (room.drawerIndex + 1) % ((effOrder room).filter fun id => mapHas room.players id).length ≤ room.drawerIndex
  · rw [if_pos ⟨by omega, hw⟩]
    split
    · exact ⟨rfl, rfl, by simpa using hw⟩
    · refine ⟨?_, ?_, ?_⟩
      · rw [(startTurn_fields ws _).1]
      · rw [(startTurn_fields ws _).2.1]
      · rw [(startTurn_fields ws _).2.2]
        simpa using hw
  · rw [if_neg (by intro hc; exact hw hc.2)]
    split
    · refine ⟨rfl, rfl, ?_⟩
      constructor
      · intro hr; exact absurd hr (by simp)
      · intro hc; exact absurd hc hw
    · refine ⟨?_, ?_, ?_⟩
      · rw [(startTurn_fields ws _).1]
      · rw [(startTurn_fields ws _).2.1]
      · rw [(startTurn_fields ws _).2.2]
        constructor
        · intro hr; exact absurd hr (by simp)
        · intro hc; exact absurd hc hw

/-- Witness for C3 at `roomWrap` (both players connected, drawer index 1):
the advance wraps to index 0 and the round increments from 1 to 2. -/
theorem nextTurnOrRound_advance_witness :
    roomWrap.phase ≠ Phase.ended ∧ 2 ≤ (presentOrder roomWrap).length ∧
    (nextTurnOrRound wsOracle roomWrap).1.drawerIndex = 0 ∧
    (nextTurnOrRound wsOracle roomWrap).1.round = 2 := by
  have h := nextTurnOrRound_advance wsOracle roomWrap (by decide) (by decide)
  refine ⟨by decide, by decide, ?_, ?_⟩
  · rw [h.2.1]; decide
  · rw [h.2.2.mpr (by decide)]; decide

/-- Counterexample to C3 as stated: on `roomEnded` (phase `ended`, rotation
`[sockA, sockB]` fully connected) the scan yields index 1 but the call
leaves `drawerIndex` at 0; on `roomOne` (`sockB` disconnected) the scan
yields index 0 but the call leaves `drawerIndex` at 1 (and ends the game).
Both rooms have a non-empty `playerOrder`, so the claim's advance promise
fails without the added hypotheses. -/
theorem nextTurnOrRound_advance_counterexample :
    (roomEnded.playerOrder = some [sidA, sidB] ∧
     getNextDrawerIndex roomEnded = 1 ∧
     (nextTurnOrRound wsOracle roomEnded).1.drawerIndex = 0) ∧
    (roomOne.playerOrder = some [sidA, sidB] ∧
     getNextDrawerIndex roomOne = 0 ∧
     (nextTurnOrRound wsOracle roomOne).1.drawerIndex = 1) := by
  decide

/-! ## C8, C10: the chat relay -/

theorem chatStep_relay (room : Room) (sid : Str) (message : Str) (nm : Option Str)
    (now : Int) (times : List Int) (p : Player)
    (hp : mapGet room.players sid = some p)
    (hallow : (pruneTimes 3000 now times).length < 5)
    (htext : ((jsTrim message).take 140).isEmpty = false)
    (hns : ¬ scoredOrClose room p ((jsTrim message).take 140)) :
    chatStep room sid message nm now times =
      (room, [Event.chatUser room.code p.name ((jsTrim message).take 140)],
        pruneTimes 3000 now times ++ [now]) := by
  have hal : allow 5 3000 now times = (true, pruneTimes 3000 now times ++ [now]) := by
    unfold allow
    rw [if_neg (by omega)]
  unfold chatStep
  rw [hp]
  simp only [hal, htext]
  by_cases hc : room.phase = Phase.drawing ∧ currentWordTruthy room = true
  · by_cases hgu : p.guessed
    · simp [hc.1, hc.2, hgu]
    · have h1 : ¬(jsLower ((jsTrim message).take 140) = jsLower (room.currentWord.getD []) ∨
          isCloseGuess ((jsTrim message).take 140) (room.currentWord.getD []) = true) := by
        intro hor
        exact hns ⟨hc.1, hc.2, by simpa using hgu, hor⟩
      push_neg at h1
      simp [hc.1, hc.2, hgu, h1.1, h1.2]
  · simp [hc]

/-- C8: a chat message of a present player that is not scored as a correct
or close guess is relayed under the server-known display name stored in the
Player record, and the handler's entire output is independent of the
client-supplied `name` field of the payload. -/
theorem chat_relay_uses_server_name (room : Room) (sid : Str) (message : Str)
    (nm1 nm2 : Option Str) (now : Int) (times : List Int) (p : Player)
    (hp : mapGet room.players sid = some p)
    (hallow : (pruneTimes 3000 now times).length < 5)
    (htext : ((jsTrim message).take 140).isEmpty = false)
    (hns : ¬ scoredOrClose room p ((jsTrim message).take 140)) :
    (chatStep room sid message nm1 now times).2.1 =
      [Event.chatUser room.code p.name ((jsTrim message).take 140)] ∧
    chatStep room sid message nm1 now times = chatStep room sid message nm2 now times := by
  refine ⟨?_, rfl⟩
  rw [chatStep_relay room sid message nm1 now times p hp hallow htext hns]

/-- Witness for C8: in `roomWait` (phase `waiting`) the message `hello`
from `sockB`, claiming the name `Mallory` in the payload, is relayed under
the stored name `Bob`, and replacing the claimed name by `Eve` changes
nothing. -/
theorem chat_relay_uses_server_name_witness :
    (chatStep roomWait sidB "hello".toList (some "Mallory".toList) 0 []).2.1 =
      [Event.chatUser roomWait.code pB.name "hello".toList] ∧
    chatStep roomWait sidB "hello".toList (some "Mallory".toList) 0 [] =
      chatStep roomWait sidB "hello".toList (some "Eve".toList) 0 [] := by
  have h := chat_relay_uses_server_name roomWait sidB "hello".toList
    (some "Mallory".toList) (some "Eve".toList) 0 [] pB (by decide) (by decide)
    (by decide) (by decide)
  exact h

/-- C10: once a player's `guessed` flag is set during `drawing`, a further
chat message of that player whose lower-cased text equals the secret word is
neither scored nor suppressed: the room state is completely unchanged (so no
score and no `guessed` flag moves) and the message - the secret word - is
relayed to the whole room as an ordinary chat event. -/
theorem chat_after_guess_relays_word (room : Room) (sid : Str) (message : Str)
    (nm : Option Str) (now : Int) (times : List Int) (p : Player) (w : Str)
    (hp : mapGet room.players sid = some p)
    (hg : p.guessed = true)
    (hphase : room.phase = Phase.drawing)
    (hw : room.currentWord = some w) (hwne : w ≠ [])
    (hallow : (pruneTimes 3000 now times).length < 5)
    (htext : ((jsTrim message).take 140).isEmpty = false)
    (hmatch : jsLower ((jsTrim message).take 140) = jsLower w) :
    chatStep room sid message nm now times =
      (room, [Event.chatUser room.code p.name ((jsTrim message).take 140)],
        pruneTimes 3000 now times ++ [now]) := by
  have hns : ¬ scoredOrClose room p ((jsTrim message).take 140) := by
    intro hsc
    have := hsc.2.2.1
    rw [hg] at this
    exact absurd this (by simp)
  exact chatStep_relay room sid message nm now times p hp hallow htext hns

/-- Witness for C10: in `roomGuessed` (phase `drawing`, word `cat`, `sockB`
already credited) the message ` CAT ` from `sockB` leaves the room
unchanged and is relayed verbatim (as `CAT`) to the room. -/
theorem chat_after_guess_relays_word_witness :
    chatStep roomGuessed sidB " CAT ".toList none 100 [] =
      (roomGuessed, [Event.chatUser roomGuessed.code pB.name "CAT".toList], [100]) := by
  have h := chat_after_guess_relays_word roomGuessed sidB " CAT ".toList none 100 []
    { pB with guessed := true } "cat".toList (by decide) (by decide) (by decide)
    (by decide) (by decide) (by decide) (by decide) (by decide)
  simpa using h

/-! ## C1: phase transitions of handlers and timer callbacks -/

theorem endTurn_phase (r : Room) : (endTurn r).1.phase = Phase.intermission := rfl

theorem beginDrawingPhase_phase (r : Room) (w : Str) :
    (beginDrawingPhase r w).1.phase = Phase.drawing := rfl

theorem createRoomStep_phase_old (reg : List (Str × Room)) (sid code : Str) (now : Int)
    (lim : List Int) (c : Str) (r : Room) (h : mapGet reg c = some r) :
    ∃ r', mapGet (createRoomStep reg sid code now lim).1 c = some r' ∧ r'.phase = r.phase := by
  simp only [createRoomStep]
  split
  · exact ⟨r, h, rfl⟩
  split
  · exact ⟨r, h, rfl⟩
  split
  · exact ⟨r, h, rfl⟩
  · simp only [createRoom]
    by_cases hc : jsUpper (jsTrim code) = c
    · subst hc
      rw [h]
      refine ⟨_, mapGet_mapSet_self _ _ _, ?_⟩
      split <;> rfl
    · cases hraw : mapGet reg (jsUpper (jsTrim code)) with
      | some r0 =>
          exact ⟨r, by rw [mapGet_mapSet_ne _ _ _ _ hc]; exact h, rfl⟩
      | none =>
          refine ⟨r, ?_, rfl⟩
          rw [mapGet_mapSet_ne _ _ _ _ hc, mapGet_mapSet_ne _ _ _ _ hc]
          exact h

theorem createRoomStep_phase_new (reg : List (Str × Room)) (sid code : Str) (now : Int)
    (lim : List Int) (c : Str) (r' : Room) (h : mapGet reg c = none)
    (h' : mapGet (createRoomStep reg sid code now lim).1 c = some r') :
    r'.phase = Phase.waiting := by
  simp only [createRoomStep] at h'
  split at h'
  · rw [h] at h'; cases h'
  split at h'
  · rw [h] at h'; cases h'
  split at h'
  · rw [h] at h'; cases h'
  · simp only [createRoom] at h'
    by_cases hc : jsUpper (jsTrim code) = c
    · subst hc
      rw [h] at h'
      rw [mapGet_mapSet_self] at h'
      cases h'
      split <;> rfl
    · cases hraw : mapGet reg (jsUpper (jsTrim code)) with
      | some r0 =>
          rw [mapGet_mapSet_ne _ _ _ _ hc, hraw] at h'
          have h2 : mapGet reg c = some r' := h'
          rw [h] at h2
          cases h2
      | none =>
          rw [mapGet_mapSet_ne _ _ _ _ hc, hraw] at h'
          have h2 : mapGet (mapSet reg (jsUpper (jsTrim code))
              (initialRoom (jsUpper (jsTrim code)))) c = some r' := h'
          rw [mapGet_mapSet_ne _ _ _ _ hc, h] at h2
          cases h2

theorem joinStep_phase (room : Room) (sid : Str) (nm tg : Option Str) (now : Int)
    (lim : List Int) : (joinStep room sid nm tg now lim).1.phase = room.phase := by
  simp only [joinStep]
  split
  · rfl
  split
  · rfl
  split
  · rfl
  · split <;> try split
    all_goals simp [applyLateJoinPolicy_phase]

theorem startGameStep_phase (room : Room) (ws : List Str) (sid : Str) (now : Int)
    (lim : List Int) :
    (startGameStep room ws sid now lim).1.phase = room.phase ∨
      (room.phase = Phase.waiting ∧
        (startGameStep room ws sid now lim).1.phase = Phase.choosing) := by
  simp only [startGameStep]
  split
  · exact Or.inl rfl
  split
  · exact Or.inl rfl
  split
  · exact Or.inl rfl
  · rename_i hwait
    refine Or.inr ⟨by simpa using hwait, ?_⟩
    rw [startTurn_phase]
    rfl

theorem chooseWordStep_phase (room : Room) (sid word : Str) (now : Int) :
    (chooseWordStep room sid word now).1.phase = room.phase ∨
      (chooseWordStep room sid word now).1.phase = Phase.drawing := by
  simp only [chooseWordStep]
  split
  · exact Or.inl rfl
  split
  · exact Or.inl rfl
  · exact Or.inr rfl

theorem chatStep_phase (room : Room) (sid message : Str) (nm : Option Str) (now : Int)
    (lim : List Int) :
    (chatStep room sid message nm now lim).1.phase = room.phase ∨
      (room.phase = Phase.drawing ∧
        (chatStep room sid message nm now lim).1.phase = Phase.intermission) := by
  simp only [chatStep]
  split
  · exact Or.inl rfl
  · split
    · exact Or.inl rfl
    split
    · exact Or.inl rfl
    split
    · rename_i hdraw
      split
      · split
        · split
          · exact Or.inr ⟨hdraw.1, rfl⟩
          · exact Or.inl rfl
        · exact Or.inl rfl
      split
      · exact Or.inl rfl
      · exact Or.inl rfl
    · exact Or.inl rfl

theorem tickStep_phase (room : Room) :
    (tickStep room).1.phase = room.phase ∨
      (room.phase = Phase.drawing ∧ (tickStep room).1.phase = Phase.intermission) := by
  simp only [tickStep]
  split
  · rename_i hdraw
    split
    · exact Or.inr ⟨hdraw, rfl⟩
    · exact Or.inl rfl
  · exact Or.inl rfl

theorem hintStep_phase (cw : Str) (idxs rev : List Nat) (pick : Nat) (room : Room) :
    (hintStep cw idxs rev pick room).1.phase = room.phase := by
  simp only [hintStep]
  split
  · rfl
  split
  · rfl
  · rfl

theorem delayedEndTurnStep_phase (room : Room) :
    (delayedEndTurnStep room).1.phase = room.phase ∨
      (room.phase = Phase.drawing ∧ (delayedEndTurnStep room).1.phase = Phase.intermission) := by
  simp only [delayedEndTurnStep]
  split
  · rename_i hdraw
    exact Or.inr ⟨hdraw, rfl⟩
  · exact Or.inl rfl

theorem nextTurnOrRound_phase (ws : List Str) (room : Room) :
    (nextTurnOrRound ws room).1.phase = room.phase ∨
      (room.phase ≠ Phase.ended ∧
        ((nextTurnOrRound ws room).1.phase = Phase.choosing ∨
         (nextTurnOrRound ws room).1.phase = Phase.ended)) := by
  simp only [nextTurnOrRound]
  split
  · exact Or.inl rfl
  · rename_i hp
    refine Or.inr ⟨hp, ?_⟩
    split
    · exact Or.inr rfl
    split
    · split
      · exact Or.inr rfl
      · refine Or.inl ?_
        rw [startTurn_phase]
        simp [hp]
    · split
      · exact Or.inr rfl
      · refine Or.inl ?_
        rw [startTurn_phase]
        simp [hp]

theorem sweepStep_keeps (reg : List (Str × Room)) (c : Str) (r : Room)
    (h : mapGet reg c = some r) (hr : r.phase ≠ Phase.ended) :
    mapGet (sweepStep reg) c = some r := by
  unfold sweepStep
  exact mapGet_filter _ reg c r h (by simpa using hr)

/-- C1 (amended): per-step phase-transition bounds for the five inbound
handlers and the timer callbacks.  `create_room` and `join_room` never
change a phase; `start_game` moves only `waiting → choosing`; `chat`, the
tick and the delayed end-of-turn callback move only `drawing →
intermission`; the hint callback changes no phase; the intermission callback
moves a non-ended room only to `choosing` or `ended`; the sweep keeps
surviving rooms untouched.  The exception to the claimed section 4.4
discipline is `choose_word`, which checks the caller and the stored word
choices but not the phase: whatever the phase, its only possible effect is
a transition to `drawing`. -/
theorem handlers_phase_transitions :
    ∀ (reg : List (Str × Room)) (room : Room) (sid code word message cw : Str)
      (nm tg : Option Str) (ws : List Str) (now : Int) (lim : List Int)
      (idxs rev : List Nat) (pick : Nat),
      (∀ c r, mapGet reg c = some r →
        ∃ r', mapGet (createRoomStep reg sid code now lim).1 c = some r' ∧
          r'.phase = r.phase) ∧
      (∀ c r', mapGet reg c = none →
        mapGet (createRoomStep reg sid code now lim).1 c = some r' →
          r'.phase = Phase.waiting) ∧
      (joinStep room sid nm tg now lim).1.phase = room.phase ∧
      ((startGameStep room ws sid now lim).1.phase = room.phase ∨
        (room.phase = Phase.waiting ∧
          (startGameStep room ws sid now lim).1.phase = Phase.choosing)) ∧
      ((chooseWordStep room sid word now).1.phase = room.phase ∨
        (chooseWordStep room sid word now).1.phase = Phase.drawing) ∧
      ((chatStep room sid message nm now lim).1.phase = room.phase ∨
        (room.phase = Phase.drawing ∧
          (chatStep room sid message nm now lim).1.phase = Phase.intermission)) ∧
      ((tickStep room).1.phase = room.phase ∨
        (room.phase = Phase.drawing ∧ (tickStep room).1.phase = Phase.intermission)) ∧
      (hintStep cw idxs rev pick room).1.phase = room.phase ∧
      ((delayedEndTurnStep room).1.phase = room.phase ∨
        (room.phase = Phase.drawing ∧
          (delayedEndTurnStep room).1.phase = Phase.intermission)) ∧
      ((nextTurnOrRound ws room).1.phase = room.phase ∨
        (room.phase ≠ Phase.ended ∧
          ((nextTurnOrRound ws room).1.phase = Phase.choosing ∨
           (nextTurnOrRound ws room).1.phase = Phase.ended))) ∧
      (∀ c r, mapGet reg c = some r → r.phase ≠ Phase.ended →
        mapGet (sweepStep reg) c = some r) := by
  intro reg room sid code word message cw nm tg ws now lim idxs rev pick
  exact ⟨fun c r h => createRoomStep_phase_old reg sid code now lim c r h,
    fun c r' h h' => createRoomStep_phase_new reg sid code now lim c r' h h',
    joinStep_phase room sid nm tg now lim,
    startGameStep_phase room ws sid now lim,
    chooseWordStep_phase room sid word now,
    chatStep_phase room sid message nm now lim,
    tickStep_phase room,
    hintStep_phase cw idxs rev pick room,
    delayedEndTurnStep_phase room,
    nextTurnOrRound_phase ws room,
    fun c r h hr => sweepStep_keeps reg c r h hr⟩

/-- Witness for C1 (amended) on the concrete intermission room of the
replayed game: the conjunct bounds instantiate, and the sweep conjunct's
hypotheses are discharged on a concrete registry. -/
theorem handlers_phase_transitions_witness :
    mapGet [("AB1C".toList, roomC1i)] "AB1C".toList = some roomC1i ∧
    roomC1i.phase ≠ Phase.ended ∧
    mapGet (sweepStep [("AB1C".toList, roomC1i)]) "AB1C".toList = some roomC1i :=
  ⟨by decide, by decide,
    (handlers_phase_transitions [("AB1C".toList, roomC1i)] roomC1i sidA [] [] [] []
      none none wsOracle 0 [] [] [] 0).2.2.2.2.2.2.2.2.2.2
      "AB1C".toList roomC1i (by decide) (by decide)⟩

/-- Counterexample to C1 as stated: the state `roomC1i` is reachable (it is
literally computed by the five handlers from a fresh registry: create, two
joins, start, a word choice and a winning guess) and sits in `intermission`
with the turn's `choices` still stored; the drawer's `choose_word` then
moves it to `drawing`, although `intermission → drawing` is not an edge of
the section 4.4 machine.  The pending intermission callback afterwards
moves that `drawing` room to `choosing` - also not an edge. -/
theorem handlers_phase_transitions_counterexample :
    roomC1d.phase = Phase.choosing ∧
    roomC1e.phase = Phase.drawing ∧
    roomC1i.phase = Phase.intermission ∧
    (chooseWordStep roomC1i sidA "dog".toList 9000).1.phase = Phase.drawing ∧
    spec44Edge Phase.intermission Phase.drawing = false ∧
    (nextTurnOrRound wsOracle (chooseWordStep roomC1i sidA "dog".toList 9000).1).1.phase =
      Phase.choosing ∧
    spec44Edge Phase.drawing Phase.choosing = false := by
  decide

/-! ## C6: the rate limiter -/

theorem pruneTimes_mono (w : Nat) (prev now : Int) (h : prev ≤ now) (l : List Int) :
    pruneTimes w now (pruneTimes w prev l) = pruneTimes w now l := by
  induction l with
  | nil => rfl
  | cons t rest ih =>
      by_cases hp : prev - t > w
      · have hn : now - t > w := by omega
        simp only [pruneTimes, if_pos hp, if_pos hn, ih]
      · simp only [pruneTimes, if_neg hp]

theorem pruneTimes_sorted_filter (w : Nat) (now : Int) (l : List Int)
    (hs : l.Sorted (· ≤ ·)) :
    pruneTimes w now l = l.filter fun t => decide (now - t ≤ w) := by
  induction l with
  | nil => rfl
  | cons t rest ih =>
      rw [List.sorted_cons] at hs
      by_cases hp : now - t > w
      · have : (decide (now - t ≤ w)) = false := by simpa using (by omega : ¬(now - t ≤ w))
        simp only [pruneTimes, if_pos hp, List.filter, this, ih hs.2]
      · have ht : (decide (now - t ≤ w)) = true := by simpa using (by omega : now - t ≤ w)
        have hall : ∀ x ∈ rest, decide (now - x ≤ (w : Int)) = true := by
          intro x hx
          have := hs.1 x hx
          simpa using (by omega : now - x ≤ (w : Int))
        simp only [pruneTimes, if_neg hp, List.filter, ht]
        rw [List.filter_eq_self.mpr hall]

theorem pruneTimes_append_now (w : Nat) (now : Int) (l : List Int) :
    pruneTimes w now (l ++ [now]) = pruneTimes w now l ++ [now] := by
  induction l with
  | nil =>
      simp only [List.nil_append, pruneTimes]
      rw [if_neg (by omega)]
  | cons t rest ih =>
      by_cases hp : now - t > w
      · simp only [List.cons_append, pruneTimes, if_pos hp, List.append_eq, ih]
      · simp only [List.cons_append, pruneTimes, if_neg hp, List.append_eq]

theorem runAllow_spec_aux (count w : Nat) :
    ∀ (calls admitted : List Int) (prev : Int),
      admitted.Sorted (· ≤ ·) →
      (∀ t ∈ admitted, t ≤ prev) →
      (∀ c ∈ calls, prev ≤ c) →
      calls.Sorted (· ≤ ·) →
      (runAllow count w (pruneTimes w prev admitted) calls).1 =
        specRun count w admitted calls := by
  intro calls
  induction calls with
  | nil => intro admitted prev _ _ _ _; rfl
  | cons now rest ih =>
      intro admitted prev hsorted hbound hge hcalls
      have hprevnow : prev ≤ now := hge now (List.mem_cons_self now rest)
      rw [List.sorted_cons] at hcalls
      have hprune : pruneTimes w now (pruneTimes w prev admitted) =
          admitted.filter fun t => decide (now - t ≤ w) := by
        rw [pruneTimes_mono w prev now hprevnow, pruneTimes_sorted_filter w now admitted hsorted]
      have hfilter : (admitted.filter fun t => decide (now - t ≤ w)) =
          pruneTimes w now admitted :=
        (pruneTimes_sorted_filter w now admitted hsorted).symm
      simp only [runAllow, allow, hprune, specRun, specAllowed]
      by_cases hcnt : count ≤ (admitted.filter fun t => decide (now - t ≤ w)).length
      · rw [if_pos hcnt]
        have hdec : decide ((admitted.filter fun t => now - t ≤ w).length < count) = false := by
          simpa using (by omega :
            ¬((admitted.filter fun t => decide (now - t ≤ w)).length < count))
        simp only [hdec]
        rw [hfilter]
        refine congrArg (List.cons false) ?_
        exact ih admitted now hsorted (fun t ht => le_trans (hbound t ht) hprevnow)
          hcalls.1 hcalls.2
      · rw [if_neg hcnt]
        have hdec : decide ((admitted.filter fun t => now - t ≤ w).length < count) = true := by
          simpa using (by omega :
            (admitted.filter fun t => decide (now - t ≤ w)).length < count)
        simp only [hdec]
        refine congrArg (List.cons true) ?_
        have hstate : (admitted.filter fun t => decide (now - t ≤ w)) ++ [now] =
            pruneTimes w now (admitted ++ [now]) := by
          rw [pruneTimes_append_now, hfilter]
        rw [hstate]
        refine ih (admitted ++ [now]) now ?_ ?_ hcalls.1 hcalls.2
        · rw [List.Sorted, List.pairwise_append]
          refine ⟨hsorted, List.pairwise_singleton _ _, ?_⟩
          intro x hx y hy
          rw [List.mem_singleton] at hy
          subst hy
          exact le_trans (hbound x hx) hprevnow
        · intro t ht
          rcases List.mem_append.mp ht with h1 | h1
          · exact le_trans (hbound t h1) hprevnow
          · rw [List.mem_singleton] at h1
            omega

/-- C6: for every limiter `(count, windowMs)` and every non-decreasing
sequence of call instants, the sequence of `allow()` results equals the
specification run, in which a call is admitted iff fewer than `count`
previously admitted calls lie within `windowMs` of the current instant and
only admitted calls are recorded; with `count = 3, windowMs = 100`, four
simultaneous calls yield `[true, true, true, false]` and a fifth call
`101 ms` later yields `true` again. -/
theorem rateLimiter_matches_spec (count windowMs : Nat) (calls : List Int)
    (h : calls.Sorted (· ≤ ·)) :
    (runAllow count windowMs [] calls).1 = specRun count windowMs [] calls ∧
    (runAllow 3 100 [] [0, 0, 0, 0]).1 = [true, true, true, false] ∧
    (runAllow 3 100 [] [0, 0, 0, 0, 101]).1 = [true, true, true, false, true] := by
  refine ⟨?_, by decide, by decide⟩
  cases calls with
  | nil => rfl
  | cons c rest =>
      have := runAllow_spec_aux count windowMs (c :: rest) [] c
        (List.sorted_nil) (by intro t ht; cases ht) ?_ h
      · simpa [pruneTimes] using this
      · intro x hx
        rcases List.mem_cons.mp hx with h1 | h1
        · omega
        · rw [List.sorted_cons] at h
          exact h.1 x h1

/-- Witness for C6 at the concrete trace `[0, 0, 0, 0, 101]`. -/
theorem rateLimiter_matches_spec_witness :
    (runAllow 3 100 [] [0, 0, 0, 0, 101]).1 = specRun 3 100 [] [0, 0, 0, 0, 101] ∧
    specRun 3 100 [] [0, 0, 0, 0, 101] = [true, true, true, false, true] :=
  ⟨(rateLimiter_matches_spec 3 100 [0, 0, 0, 0, 101] (by decide)).1, by decide⟩

/-! ## C4: isCloseGuess and the Levenshtein distance -/

theorem levM_zero_right (a b : Str) (i : Nat) : levM a b i 0 = i := by
  cases i with
  | zero => rw [levM]
  | succ n => rw [levM]

theorem dpRowAux_eq (a b : Str) (k : Nat) :
    ∀ (n j : Nat), j + n = b.length →
      dpRowAux (a.getD k ' ') (b.drop j)
        ((List.range' (j + 1) n).map (levM a b k))
        (levM a b k j) (levM a b (k + 1) j)
      = (List.range' (j + 1) n).map (levM a b (k + 1)) := by
  intro n
  induction n with
  | zero =>
      intro j hj
      have hd : b.drop j = [] := by
        have hj' : j = b.length := by omega
        rw [hj']
        exact List.drop_length b
      rw [hd]
      rfl
  | succ n ihn =>
      intro j hj
      have hjlt : j < b.length := by omega
      have hdrop : b.drop j = b.getD j ' ' :: b.drop (j + 1) := by
        rw [List.getD_eq_getElem b ' ' hjlt]
        exact List.drop_eq_getElem_cons hjlt
      have hrange : List.range' (j + 1) (n + 1) = (j + 1) :: List.range' (j + 2) n :=
        List.range'_succ (j + 1) n 1
      rw [hdrop, hrange]
      simp only [List.map_cons, dpRowAux]
      have hcell : min (levM a b k (j + 1) + 1)
          (min (levM a b (k + 1) j + 1)
            (levM a b k j + levCost (a.getD k ' ') (b.getD j ' ')))
          = levM a b (k + 1) (j + 1) := by
        rw [levM]
      rw [hcell]
      refine congrArg (List.cons (levM a b (k + 1) (j + 1))) ?_
      have := ihn (j + 1) (by omega)
      simpa using this

theorem dpLoop_eq (a b : Str) :
    ∀ (s : List Char) (k : Nat), s = a.drop k → k ≤ a.length →
      dpLoop b s k ((List.range (b.length + 1)).map (levM a b k))
        = (List.range (b.length + 1)).map (levM a b a.length) := by
  intro s
  induction s with
  | nil =>
      intro k hk hkle
      have hlen : a.length ≤ k := by
        by_contra hlt
        rw [List.drop_eq_getElem_cons (by omega : k < a.length)] at hk
        cases hk
      have hk2 : a.length = k := by omega
      rw [← hk2]
      rfl
  | cons ca rest ihr =>
      intro k hk hkle
      have hklt : k < a.length := by
        by_contra hge
        rw [List.drop_eq_nil_of_le (by omega)] at hk
        cases hk
      have hdropk : a.drop k = a.getD k ' ' :: a.drop (k + 1) := by
        rw [List.getD_eq_getElem a ' ' hklt]
        exact List.drop_eq_getElem_cons hklt
      rw [hdropk] at hk
      have hca : ca = a.getD k ' ' := (List.cons.inj hk).1
      have hrest : rest = a.drop (k + 1) := (List.cons.inj hk).2
      have hrange : List.range (b.length + 1) = 0 :: List.range' 1 b.length := by
        rw [List.range_eq_range']
        exact List.range'_succ 0 b.length 1
      simp only [dpLoop]
      have hhead : ((List.range (b.length + 1)).map (levM a b k)).headD 0 = levM a b k 0 := by
        rw [hrange]
        rfl
      have htail : ((List.range (b.length + 1)).map (levM a b k)).tail =
          (List.range' 1 b.length).map (levM a b k) := by
        rw [hrange]
        rfl
      rw [hhead, htail, hca]
      have hleft : k + 1 = levM a b (k + 1) 0 := (levM_zero_right a b (k + 1)).symm
      have hdiag : levM a b k 0 = levM a b k 0 := rfl
      have hrow : dpRowAux (a.getD k ' ') b ((List.range' 1 b.length).map (levM a b k))
          (levM a b k 0) (k + 1) = (List.range' 1 b.length).map (levM a b (k + 1)) := by
        have := dpRowAux_eq a b k b.length 0 (by omega)
        rw [levM_zero_right a b (k + 1)] at this
        simpa using this
      rw [hrow]
      have hnew : (k + 1) :: (List.range' 1 b.length).map (levM a b (k + 1)) =
          (List.range (b.length + 1)).map (levM a b (k + 1)) := by
        rw [hrange]
        simp only [List.map_cons]
        rw [levM_zero_right a b (k + 1)]
      rw [hnew]
      exact ihr (k + 1) hrest (by omega)

theorem dpDist_eq_levM (a b : Str) : dpDist a b = levM a b a.length b.length := by
  unfold dpDist
  have h0 : (List.range (b.length + 1)).map (levM a b 0) = List.range (b.length + 1) := by
    have : ∀ j ∈ List.range (b.length + 1), levM a b 0 j = j := by
      intro j _
      rw [levM]
    rw [List.map_congr_left this]
    simp
  rw [← h0, dpLoop_eq a b a 0 rfl (by omega)]
  have hlt : b.length < (List.range (b.length + 1)).length := by simp
  have hmap : b.length < ((List.range (b.length + 1)).map (levM a b a.length)).length := by
    simpa using hlt
  rw [List.getD_eq_getElem _ 0 hmap]
  simp

theorem levM_ge_diff (a b : Str) :
    ∀ (i j : Nat), (i : Int) - j ≤ levM a b i j ∧ (j : Int) - i ≤ levM a b i j := by
  intro i
  induction i with
  | zero =>
      intro j
      rw [levM]
      constructor <;> omega
  | succ i ihi =>
      intro j
      induction j with
      | zero =>
          rw [levM]
          constructor <;> omega
      | succ j ihj =>
          rw [levM]
          have h1 := ihi (j + 1)
          have h2 := ihj
          have h3 := ihi j
          rcases min_choice (levM a b i (j + 1) + 1)
              (min (levM a b (i + 1) j + 1)
                (levM a b i j + levCost (a.getD i ' ') (b.getD j ' '))) with hm | hm <;>
            rw [hm]
          · constructor <;> push_cast <;> omega
          · rcases min_choice (levM a b (i + 1) j + 1)
                (levM a b i j + levCost (a.getD i ' ') (b.getD j ' ')) with hm2 | hm2 <;>
              rw [hm2]
            · constructor <;> push_cast <;> omega
            · have hc : 0 ≤ (levCost (a.getD i ' ') (b.getD j ' ') : Int) := by positivity
              constructor <;> push_cast <;> omega

/-- C4 (amended): for lower-cased, trimmed forms `a` and `b` that are
non-empty and at most 40 characters long (the computation cap of the
handler), `isCloseGuess` returns true exactly when the Levenshtein edit
distance between `a` and `b` is at most `maxClose = max(1, floor(len(b) *
0.25))`; in particular it returns false whenever the length difference
alone exceeds `maxClose`. -/
theorem isCloseGuess_iff_levenshtein (guess word a b : Str)
    (ha : a = jsTrim (jsLower guess)) (hb : b = jsTrim (jsLower word))
    (hna : a ≠ []) (hnb : b ≠ []) (hla : a.length ≤ 40) (hlb : b.length ≤ 40) :
    isCloseGuess guess word = true ↔ levenshtein a b ≤ max 1 (b.length / 4) := by
  subst ha hb
  simp only [isCloseGuess]
  have hae : (jsTrim (jsLower guess)).isEmpty = false := by
    simpa [List.isEmpty_iff] using hna
  have hbe : (jsTrim (jsLower word)).isEmpty = false := by
    simpa [List.isEmpty_iff] using hnb
  rw [hae, hbe]
  simp only [Bool.or_false, Bool.false_eq_true, if_false]
  set A := jsTrim (jsLower guess) with hA
  set B := jsTrim (jsLower word) with hB
  by_cases hdiff : (A.length : Int) - B.length > (max 1 (B.length / 4) : Nat) ∨
      (B.length : Int) - A.length > (max 1 (B.length / 4) : Nat)
  · rw [if_pos hdiff]
    have hge := levM_ge_diff A B A.length B.length
    have hnle : ¬(levenshtein A B ≤ max 1 (B.length / 4)) := by
      unfold levenshtein
      rcases hdiff with hd | hd <;> omega
    simp [hnle]
  · rw [if_neg hdiff]
    rw [List.take_of_length_le hla, List.take_of_length_le hlb]
    rw [dpDist_eq_levM]
    unfold levenshtein
    simp

/-- Witness for C4 at the claim's examples: `pizze` vs `pizza` (distance 1,
threshold 1) is close; `xyz` vs `pizza` is rejected. -/
theorem isCloseGuess_iff_levenshtein_witness :
    (isCloseGuess "pizze".toList "pizza".toList = true ↔
      levenshtein "pizze".toList "pizza".toList ≤ max 1 ("pizza".toList.length / 4)) ∧
    isCloseGuess "pizze".toList "pizza".toList = true ∧
    (isCloseGuess "xyz".toList "pizza".toList = true ↔
      levenshtein "xyz".toList "pizza".toList ≤ max 1 ("pizza".toList.length / 4)) ∧
    isCloseGuess "xyz".toList "pizza".toList = false := by
  refine ⟨?_, by decide, ?_, by decide⟩
  · exact isCloseGuess_iff_levenshtein "pizze".toList "pizza".toList
      "pizze".toList "pizza".toList (by decide) (by decide) (by decide) (by decide)
      (by decide) (by decide)
  · exact isCloseGuess_iff_levenshtein "xyz".toList "pizza".toList
      "xyz".toList "pizza".toList (by decide) (by decide) (by decide) (by decide)
      (by decide) (by decide)

set_option maxRecDepth 4000 in
/-- Counterexample to C4 as stated: for the 53-character guess
`longGuess` (40 `x`s then 13 `y`s) against the 50-character word `longWord`
(50 `x`s) - both already lower-case and trimmed - the handler truncates to
40 characters before the dynamic program and answers true, yet the
Levenshtein distance between the full strings is 13, above the threshold
`maxClose = max 1 (50 / 4) = 12`, so the claimed equivalence fails. -/
theorem isCloseGuess_iff_levenshtein_counterexample :
    jsTrim (jsLower longGuess) = longGuess ∧
    jsTrim (jsLower longWord) = longWord ∧
    longGuess.length = 53 ∧ longWord.length = 50 ∧
    max 1 (longWord.length / 4) = 12 ∧
    isCloseGuess longGuess longWord = true ∧
    levenshtein longGuess longWord = 13 := by
  refine ⟨by decide, by decide, by decide, by decide, by decide, by decide, ?_⟩
  have h := dpDist_eq_levM longGuess longWord
  unfold levenshtein
  rw [← h]
  decide

end Skribbl
